import Mathlib

/-! Verification of the text-cleaning pipeline in
`backend/services/ingest/pdf_service.py`: line normalization, recurring
header/footer detection, edge stripping, noise-page classification and the
orchestrating preprocessing pass. Pages are modelled as a page number plus
the extracted text, text being the list of its Unicode code points. -/

namespace Booktures

/-- A raw or cleaned page: `page_number` plus the extracted text. -/
structure Page where
  page_number : Nat
  text : List Char
deriving DecidableEq

/-- Characters matched by Python's whitespace class \s (also the set stripped
by str.strip): ASCII whitespace plus the Unicode whitespace code points. -/
def isPySpace (c : Char) : Bool :=
  decide (c.toNat = 32 ∨ (9 ≤ c.toNat ∧ c.toNat ≤ 13) ∨ (28 ≤ c.toNat ∧ c.toNat ≤ 31) ∨
    c.toNat = 133 ∨ c.toNat = 160 ∨ c.toNat = 5760 ∨
    (8192 ≤ c.toNat ∧ c.toNat ≤ 8202) ∨ c.toNat = 8232 ∨ c.toNat = 8233 ∨
    c.toNat = 8239 ∨ c.toNat = 8287 ∨ c.toNat = 12288)

/-- Python str.strip with no argument: drop whitespace from both ends. -/
def stripChars (s : List Char) : List Char :=
  ((s.dropWhile isPySpace).reverse.dropWhile isPySpace).reverse

/-- Python str.lower on the ASCII range; the pipeline's later steps only
distinguish characters in the ASCII range. -/
def toLowerPy (c : Char) : Char :=
  if 65 ≤ c.toNat ∧ c.toNat ≤ 90 then Char.ofNat (c.toNat + 32) else c

/-- Line-break characters recognised by Python str.splitlines. -/
def isLineBreak (c : Char) : Bool :=
  decide (c.toNat = 10 ∨ (11 ≤ c.toNat ∧ c.toNat ≤ 13) ∨ c.toNat = 28 ∨ c.toNat = 29 ∨
    c.toNat = 30 ∨ c.toNat = 133 ∨ c.toNat = 8232 ∨ c.toNat = 8233)

/-- Worker for splitlines, accumulating the current line reversed; a carriage
return followed by a newline counts as a single line break, and a final
segment is emitted only when non-empty. -/
def splitlinesAux : List Char → List Char → List (List Char)
  | [], acc => if acc = [] then [] else [acc.reverse]
  | '\r' :: '\n' :: rest, acc => acc.reverse :: splitlinesAux rest []
  | c :: rest, acc =>
    if isLineBreak c then acc.reverse :: splitlinesAux rest []
    else splitlinesAux rest (c :: acc)

/-- Python str.splitlines. -/
def splitlines (s : List Char) : List (List Char) := splitlinesAux s []

/-- Replace each maximal run of whitespace by one space: the substitution of
one-or-more whitespace with a single space in normalize-line. A whitespace
character followed by another whitespace character is dropped, so only the
last character of a run survives, replaced by a plain space. -/
def collapseWs : List Char → List Char
  | [] => []
  | [c] => if isPySpace c then [' '] else [c]
  | c :: d :: cs =>
    if isPySpace c then
      if isPySpace d then collapseWs (d :: cs)
      else ' ' :: collapseWs (d :: cs)
    else c :: collapseWs (d :: cs)

/-- Maximal runs of characters satisfying p, in order: the matches of a
one-or-more character-class pattern as returned by re.findall. A matching
character followed by another matching character is prepended to the run the
latter starts; a matching character not so followed closes its run. -/
def tokenRuns (p : Char → Bool) : List Char → List (List Char)
  | [] => []
  | [c] => if p c then [[c]] else []
  | c :: d :: cs =>
    if p c then
      if p d then
        match tokenRuns p (d :: cs) with
        | [] => [[c]]
        | t :: ts => (c :: t) :: ts
      else [c] :: tokenRuns p (d :: cs)
    else tokenRuns p (d :: cs)

/-- Characters kept by the deletion of everything outside lowercase letters,
digits and the space. -/
def isNormChar (c : Char) : Bool :=
  decide ((97 ≤ c.toNat ∧ c.toNat ≤ 122) ∨ (48 ≤ c.toNat ∧ c.toNat ≤ 57) ∨ c.toNat = 32)

/-- The source's normalize-line: strip, lowercase, collapse whitespace runs to
single spaces, delete characters outside lowercase/digit/space, strip again. -/
def normalize_line (line : List Char) : List Char :=
  let normalized := collapseWs ((stripChars line).map toLowerPy)
  let normalized2 := normalized.filter isNormChar
  stripChars normalized2

/-- The non-blank stripped lines of a page's text, as built by the first loop
of the preprocessing pass. -/
def page_lines (text : List Char) : List (List Char) :=
  ((splitlines text).map stripChars).filter (fun ln => decide (ln ≠ []))

/-- One step of the header/footer counting loop: for a page with at least one
non-blank line, bump the count of the normalized first line (when non-empty)
in the header table and of the normalized last line in the footer table. -/
def bump_counts (acc : (List Char → Nat) × (List Char → Nat)) (page : Page) :
    (List Char → Nat) × (List Char → Nat) :=
  match page_lines page.text with
  | [] => acc
  | l :: rest =>
    let head := normalize_line l
    let tail := normalize_line ((l :: rest).getLast (List.cons_ne_nil l rest))
    let headerTable := if head = [] then acc.1 else Function.update acc.1 head (acc.1 head + 1)
    let footerTable := if tail = [] then acc.2 else Function.update acc.2 tail (acc.2 tail + 1)
    (headerTable, footerTable)

/-- The header and footer count tables over a whole document; a Python dict
read with a default of zero is modelled as a function of finite support. -/
def header_footer_counts (pages : List Page) : (List Char → Nat) × (List Char → Nat) :=
  pages.foldl bump_counts (fun _ => 0, fun _ => 0)

/-- Fuelled floor of the base-two logarithm (zero at zero); the fuel makes
the recursion structural, so kernel evaluation unfolds it step by step. -/
def log2floorAux : Nat → Nat → Nat
  | 0, _ => 0
  | fuel + 1, n => if 2 ≤ n then log2floorAux fuel (n / 2) + 1 else 0

/-- Floor of the base-two logarithm, with fuel equal to the argument. -/
def log2floor (n : Nat) : Nat := log2floorAux n n

/-- Round a natural number to the nearest multiple of 2 ^ s, ties to the even
multiple: the significand rounding of IEEE-754 round-to-nearest-even. -/
def roundEvenScaled (p s : Nat) : Nat :=
  let d := 2 ^ s
  let lo := p / d
  let r := p % d
  if 2 * r < d then lo * d
  else if d < 2 * r then (lo + 1) * d
  else if lo % 2 = 0 then lo * d else (lo + 1) * d

/-- Round a natural number to 53 significant bits, ties to even: the exact
value of the binary64 double nearest to that integer, valid whenever the
conversion does not overflow (every argument below 2 ^ 1023). -/
def round53 (p : Nat) : Nat :=
  if log2floor p ≤ 52 then p else roundEvenScaled p (log2floor p - 52)

/-- Python's int(n * 0.2) in exact integer arithmetic: n is converted to the
nearest binary64 (a 53-bit rounding), multiplied by the double literal 0.2,
whose exact value is 3602879701896397 / 2 ^ 54; the product is again rounded
to 53 significant bits (the rounding commutes with the power-of-two scale
factor), and the non-negative result is truncated toward zero. Faithful for
every length below 2 ^ 1023, far beyond any constructible list. -/
def float_fifth (n : Nat) : Nat :=
  round53 (round53 n * 3602879701896397) / 2 ^ 54

/-- The source computes max(3, int(len(pages) * 0.2)) in binary64 floating
point; float_fifth is that inner truncation in exact integer arithmetic. -/
def recurring_threshold (pages : List Page) : Nat := max 3 (float_fifth pages.length)

/-- Membership in the recurring-header key set: keys whose header count meets
the threshold; the threshold is at least 3, so any such key is necessarily
present in the count table. -/
def is_recurring_header (pages : List Page) (k : List Char) : Bool :=
  decide (recurring_threshold pages ≤ (header_footer_counts pages).1 k)

/-- Membership in the recurring-footer key set. -/
def is_recurring_footer (pages : List Page) (k : List Char) : Bool :=
  decide (recurring_threshold pages ≤ (header_footer_counts pages).2 k)

/-- The source's strip-recurring-edges: pop lines from the front while the
normalized line is a recurring header, then from the back while the
normalized line is a recurring footer. -/
def strip_recurring_edges (lines : List (List Char))
    (recurring_headers recurring_footers : List Char → Bool) : List (List Char) :=
  if lines = [] then lines
  else
    let cleaned := lines.dropWhile (fun ln => recurring_headers (normalize_line ln))
    (cleaned.reverse.dropWhile (fun ln => recurring_footers (normalize_line ln))).reverse

/-- Word characters of the word-token pattern: ASCII letters and apostrophe. -/
def isWordChar (c : Char) : Bool :=
  decide ((97 ≤ c.toNat ∧ c.toNat ≤ 122) ∨ (65 ≤ c.toNat ∧ c.toNat ≤ 90) ∨ c.toNat = 39)

/-- Number of word tokens found in the stripped, lowercased page text. -/
def word_count (text : List Char) : Nat :=
  (tokenRuns isWordChar ((stripChars text).map toLowerPy)).length

/-- The fixed front-matter keyword list, in source order. -/
def front_matter_keywords : List (List Char) :=
  ["preface".data, "about the author".data, "copyright".data, "all rights reserved".data,
   "table of contents".data, "contents".data, "acknowledg".data, "dedication".data,
   "isbn".data, "published by".data, "index".data]

/-- The source's noise-page test: empty stripped text is noise; fewer than 20
word tokens is noise; an early page (logical position at most 15) with a
front-matter keyword occurring in the lowercased text and fewer than 220 word
tokens is noise; anything else is kept. -/
def is_noise_page (page : Page) (logical_position : Nat) : Bool :=
  let text := stripChars page.text
  if text = [] then true
  else
    let lowered := text.map toLowerPy
    let wc := word_count page.text
    let keyword_hits := List.countP (fun kw => decide (kw <:+: lowered)) front_matter_keywords
    if wc < 20 then true
    else if logical_position ≤ 15 ∧ 1 ≤ keyword_hits ∧ wc < 220 then true
    else false

/-- The candidate cleaned page built in the filtering loop: recurring edges
stripped, lines rejoined with newlines, overall whitespace trimmed. -/
def candidate_page (hdr ftr : List Char → Bool) (page : Page) : Page :=
  let lines := strip_recurring_edges (page_lines page.text) hdr ftr
  ⟨page.page_number, stripChars (List.intercalate ['\n'] lines)⟩

/-- The filtering loop over the enumerated pages: idx is the 0-based loop
counter, so the classifier sees logical position idx + 1; noise pages and
pages whose stripped text is empty are skipped. -/
def filter_noise (hdr ftr : List Char → Bool) : Nat → List Page → List Page
  | _, [] => []
  | idx, page :: rest =>
    let candidate := candidate_page hdr ftr page
    if is_noise_page candidate (idx + 1) = true then filter_noise hdr ftr (idx + 1) rest
    else if candidate.text = [] then filter_noise hdr ftr (idx + 1) rest
    else candidate :: filter_noise hdr ftr (idx + 1) rest

/-- The filtered page list produced by the loop in preprocess-pages. -/
def cleaned_pages (pages : List Page) : List Page :=
  filter_noise (is_recurring_header pages) (is_recurring_footer pages) 0 pages

/-- The source's preprocess-pages: early return on the empty document,
otherwise filter, with the or-fallback to the unfiltered pages. -/
def preprocess_pages (pages : List Page) : List Page :=
  if pages = [] then pages
  else if cleaned_pages pages = [] then pages
  else cleaned_pages pages

/-- The preprocessing switch applied after raw extraction: when the flag is
false the raw pages are returned verbatim, otherwise the pages are cleaned. -/
def clean (enable_text_preprocessing : Bool) (raw_pages : List Page) : List Page :=
  if enable_text_preprocessing = false then raw_pages
  else preprocess_pages raw_pages


/-- A concrete one-page document body of exactly 20 plain words, used to
instantiate hypothesis-bearing theorems at a page that survives filtering. -/
def pg20 : Page :=
  ⟨1, "alpha bravo charlie delta echo foxtrot golf hotel juliett kilo lima mike november oscar papa quebec romeo sierra tango uniform".data⟩

section Helpers

variable {α : Type}

/-- The first element surviving a dropWhile fails the predicate. -/
theorem dropWhile_head?_false {p : α → Bool} :
    ∀ {l : List α} {x : α}, (l.dropWhile p).head? = some x → p x = false := by
  intro l
  induction l with
  | nil => intro x h; simp [List.dropWhile] at h
  | cons a t ih =>
    intro x h
    rw [List.dropWhile_cons] at h
    by_cases ha : p a = true
    · rw [if_pos ha] at h
      exact ih h
    · rw [if_neg ha] at h
      simp only [List.head?_cons, Option.some.injEq] at h
      subst h
      exact Bool.eq_false_iff.mpr ha

/-- A list whose head fails the predicate is unchanged by dropWhile. -/
theorem dropWhile_eq_self {p : α → Bool} {l : List α}
    (h : ∀ x, l.head? = some x → p x = false) : l.dropWhile p = l := by
  cases l with
  | nil => rfl
  | cons a t =>
    rw [List.dropWhile_cons, if_neg]
    simp [h a rfl]

/-- The head of a non-empty prefix is the head of the whole list. -/
theorem head?_of_prefix_eq {l₁ l₂ : List α} (h : l₁ <+: l₂) {x : α}
    (hx : l₁.head? = some x) : l₂.head? = some x := by
  obtain ⟨t, rfl⟩ := h
  cases l₁ with
  | nil => simp at hx
  | cons a s => simpa using hx

/-- Dropping from the front and then from the back (through a reversal)
yields a prefix of the front-dropped list. -/
theorem dropWhile_both_isPrefix (p q : α → Bool) (l : List α) :
    ((l.dropWhile p).reverse.dropWhile q).reverse <+: l.dropWhile p := by
  have h1 : (l.dropWhile p).reverse.dropWhile q <:+ (l.dropWhile p).reverse :=
    List.dropWhile_suffix q
  have h2 := Iff.mpr List.reverse_prefix h1
  rwa [List.reverse_reverse] at h2

/-- Dropping from the front and then from the back yields an infix of the
original list. -/
theorem dropWhile_both_isInfix (p q : α → Bool) (l : List α) :
    ((l.dropWhile p).reverse.dropWhile q).reverse <:+: l :=
  ((dropWhile_both_isPrefix p q l).isInfix).trans (List.dropWhile_suffix p).isInfix

/-- The head of a front-and-back-dropped list fails the front predicate. -/
theorem dropWhile_both_head?_false {p q : α → Bool} {l : List α} {x : α}
    (h : (((l.dropWhile p).reverse.dropWhile q).reverse).head? = some x) :
    p x = false :=
  dropWhile_head?_false (head?_of_prefix_eq (dropWhile_both_isPrefix p q l) h)

/-- The last element of a front-and-back-dropped list fails the back
predicate. -/
theorem dropWhile_both_getLast?_false {p q : α → Bool} {l : List α} {x : α}
    (h : (((l.dropWhile p).reverse.dropWhile q).reverse).getLast? = some x) :
    q x = false := by
  rw [List.getLast?_reverse] at h
  exact dropWhile_head?_false h

end Helpers

section StripLemmas

/-- stripChars never invents characters: its result is an infix of the
input. -/
theorem stripChars_infix_self (s : List Char) : stripChars s <:+: s :=
  dropWhile_both_isInfix isPySpace isPySpace s

/-- The first character of a stripped string is not whitespace. -/
theorem stripChars_head?_not_space {s : List Char} {x : Char}
    (h : (stripChars s).head? = some x) : isPySpace x = false :=
  dropWhile_both_head?_false h

/-- The last character of a stripped string is not whitespace. -/
theorem stripChars_getLast?_not_space {s : List Char} {x : Char}
    (h : (stripChars s).getLast? = some x) : isPySpace x = false :=
  dropWhile_both_getLast?_false h

/-- A string without leading or trailing whitespace is unchanged by
stripping. -/
theorem stripChars_eq_self {l : List Char}
    (hh : ∀ x, l.head? = some x → isPySpace x = false)
    (hl : ∀ x, l.getLast? = some x → isPySpace x = false) : stripChars l = l := by
  unfold stripChars
  rw [dropWhile_eq_self hh]
  have : l.reverse.dropWhile isPySpace = l.reverse := by
    apply dropWhile_eq_self
    intro x hx
    rw [List.head?_reverse] at hx
    exact hl x hx
  rw [this, List.reverse_reverse]

/-- Stripping is idempotent. -/
theorem stripChars_idem (s : List Char) : stripChars (stripChars s) = stripChars s :=
  stripChars_eq_self (fun _ h => stripChars_head?_not_space h)
    (fun _ h => stripChars_getLast?_not_space h)

end StripLemmas


section PipelineLemmas

/-- The page numbers produced by the filtering loop form a subsequence of the
input page numbers, for every starting counter value. -/
theorem filter_noise_pn_sublist (hdr ftr : List Char → Bool) :
    ∀ (idx : Nat) (l : List Page),
      List.Sublist ((filter_noise hdr ftr idx l).map Page.page_number)
        (l.map Page.page_number) := by
  intro idx l
  induction l generalizing idx with
  | nil => simp [filter_noise]
  | cons page rest ih =>
    rw [filter_noise]
    split
    · exact (ih (idx + 1)).trans (List.sublist_cons_self _ _)
    · split
      · exact (ih (idx + 1)).trans (List.sublist_cons_self _ _)
      · simpa [candidate_page] using (ih (idx + 1)).cons₂ page.page_number

end PipelineLemmas

/-- C1: the preprocessing pipeline is total over page lists; it maps the
empty input to itself, and for non-empty input, when the filtered result is
empty it returns the original unfiltered pages, so its output on non-empty
input is never empty. -/
theorem C1_clean_total_never_empty :
    preprocess_pages [] = ([] : List Page) ∧
    ∀ pages : List Page, pages ≠ [] →
      (cleaned_pages pages = [] → preprocess_pages pages = pages) ∧
      preprocess_pages pages ≠ [] := by
  refine ⟨rfl, fun pages hne => ⟨fun hc => by simp [preprocess_pages, hne, hc], ?_⟩⟩
  by_cases hc : cleaned_pages pages = []
  · simp [preprocess_pages, hne, hc]
  · simp [preprocess_pages, hne, hc]

/-- Witness for C1 at the one-page document whose page is blank: the filter
drops the page, the fallback returns the original, and the output is
non-empty. -/
theorem C1_witness :
    preprocess_pages [Page.mk 1 []] = [Page.mk 1 []] ∧
      preprocess_pages [Page.mk 1 []] ≠ [] := by
  have h := C1_clean_total_never_empty.2 [Page.mk 1 []] (by decide)
  exact ⟨h.1 (by decide), h.2⟩

/-- C2: cleaning never lengthens the document, and the surviving pages keep
their page numbers as a subsequence of the input page numbers, in the input
order with nothing new introduced; this covers the fallback case as well. -/
theorem C2_length_le_and_subsequence (pages : List Page) :
    (preprocess_pages pages).length ≤ pages.length ∧
    List.Sublist ((preprocess_pages pages).map Page.page_number)
      (pages.map Page.page_number) := by
  have hsub : List.Sublist ((preprocess_pages pages).map Page.page_number)
      (pages.map Page.page_number) := by
    by_cases h0 : pages = []
    · simp [preprocess_pages, h0]
    by_cases hc : cleaned_pages pages = []
    · simp [preprocess_pages, h0, hc]
    · unfold preprocess_pages
      rw [if_neg h0, if_neg hc]
      unfold cleaned_pages
      exact filter_noise_pn_sublist (is_recurring_header pages) (is_recurring_footer pages) 0 pages
  refine ⟨?_, hsub⟩
  have h := hsub.length_le
  simpa using h

/-- C5: edge stripping drops leading recurring-header lines, then trailing
recurring-footer lines; a non-empty result neither starts with a line whose
normalization is a recurring header nor ends with one whose normalization is
a recurring footer, and a fully stripped page is the empty list. -/
theorem C5_strip_edges_boundary (lines : List (List Char)) (hdr ftr : List Char → Bool) :
    (∀ l, (strip_recurring_edges lines hdr ftr).head? = some l →
      hdr (normalize_line l) = false) ∧
    (∀ l, (strip_recurring_edges lines hdr ftr).getLast? = some l →
      ftr (normalize_line l) = false) := by
  by_cases hl : lines = []
  · subst hl
    simp [strip_recurring_edges]
  · rw [strip_recurring_edges, if_neg hl]
    constructor
    · intro l h
      exact dropWhile_both_head?_false (p := fun ln => hdr (normalize_line ln)) h
    · intro l h
      exact dropWhile_both_getLast?_false (q := fun ln => ftr (normalize_line ln)) h

/-- Witness for C5 at a three-line page between singleton recurring sets: the
surviving middle line is neither a recurring header nor a recurring footer. -/
theorem C5_witness :
    (fun k => decide (k = "headx".data)) (normalize_line "body".data) = false ∧
    (fun k => decide (k = "footy".data)) (normalize_line "body".data) = false :=
  ⟨(C5_strip_edges_boundary ["HeadX".data, "body".data, "FootY".data]
      (fun k => decide (k = "headx".data)) (fun k => decide (k = "footy".data))).1
      "body".data (by decide),
   (C5_strip_edges_boundary ["HeadX".data, "body".data, "FootY".data]
      (fun k => decide (k = "headx".data)) (fun k => decide (k = "footy".data))).2
      "body".data (by decide)⟩

/-- C10: edge stripping returns a contiguous infix of its input line list:
lines are only removed at the two ends, never modified, reordered, or removed
from strictly inside the page. -/
theorem C10_strip_is_contiguous_infix (lines : List (List Char))
    (hdr ftr : List Char → Bool) :
    strip_recurring_edges lines hdr ftr <:+: lines := by
  by_cases hl : lines = []
  · subst hl
    simp [strip_recurring_edges]
  · rw [strip_recurring_edges, if_neg hl]
    exact dropWhile_both_isInfix _ _ lines



section CountLemmas

/-- One counting step never touches the empty-string key: the source guards
both increments on the normalized line being non-empty. -/
theorem bump_counts_nil_key (acc : (List Char → Nat) × (List Char → Nat)) (page : Page) :
    (bump_counts acc page).1 [] = acc.1 [] ∧ (bump_counts acc page).2 [] = acc.2 [] := by
  unfold bump_counts
  split
  · exact ⟨rfl, rfl⟩
  · constructor
    · dsimp only
      split_ifs with h
      · rfl
      · exact Function.update_noteq (Ne.symm h) _ _
    · dsimp only
      split_ifs with h
      · rfl
      · exact Function.update_noteq (Ne.symm h) _ _

/-- The whole counting fold never touches the empty-string key. -/
theorem foldl_bump_nil_key (pages : List Page) :
    ∀ acc, (pages.foldl bump_counts acc).1 [] = acc.1 [] ∧
      (pages.foldl bump_counts acc).2 [] = acc.2 [] := by
  induction pages with
  | nil => intro acc; exact ⟨rfl, rfl⟩
  | cons p rest ih =>
    intro acc
    rw [List.foldl_cons]
    exact ⟨((ih (bump_counts acc p)).1).trans (bump_counts_nil_key acc p).1,
      ((ih (bump_counts acc p)).2).trans (bump_counts_nil_key acc p).2⟩

/-- The empty normalized key has count zero in both tables. -/
theorem header_footer_counts_nil_key (pages : List Page) :
    (header_footer_counts pages).1 [] = 0 ∧ (header_footer_counts pages).2 [] = 0 := by
  unfold header_footer_counts
  exact foldl_bump_nil_key pages _

end CountLemmas

section NoiseLemmas

/-- A page the classifier keeps has non-empty stripped text and at least 20
word tokens. -/
theorem not_noise_conditions {page : Page} {lp : Nat}
    (h : is_noise_page page lp = false) :
    stripChars page.text ≠ [] ∧ 20 ≤ word_count page.text := by
  by_cases h1 : stripChars page.text = []
  · unfold is_noise_page at h
    simp [h1] at h
  by_cases h2 : word_count page.text < 20
  · unfold is_noise_page at h
    simp [h1, h2] at h
  · exact ⟨h1, not_lt.mp h2⟩

/-- Every page emitted by the filtering loop has non-empty text and was
cleared by the classifier at some logical position. -/
theorem mem_filter_noise_conditions {hdr ftr : List Char → Bool} :
    ∀ {idx : Nat} {l : List Page} {p : Page}, p ∈ filter_noise hdr ftr idx l →
      p.text ≠ [] ∧ ∃ j, is_noise_page p (j + 1) = false := by
  intro idx l
  induction l generalizing idx with
  | nil => intro p h; simp [filter_noise] at h
  | cons page rest ih =>
    intro p h
    rw [filter_noise] at h
    split at h
    · exact ih h
    · split at h
      · exact ih h
      · rename_i hni hte
        rcases List.mem_cons.mp h with hp | hp
        · subst hp
          exact ⟨hte, idx, Bool.not_eq_true _ ▸ Bool.of_not_eq_true hni⟩
        · exact ih hp

end NoiseLemmas

/-- C3: the noise classifier decides exactly the ordered rule: blank stripped
text is noise; otherwise fewer than 20 word tokens is noise (19 tokens is
noise, 20 is not on word-count grounds); otherwise the page is noise iff its
logical position is at most 15, some fixed front-matter keyword occurs in the
lowercased text, and the word count is below 220. -/
theorem C3_noise_decision_rule (page : Page) (lp : Nat) :
    is_noise_page page lp = true ↔
      (stripChars page.text = [] ∨
       (stripChars page.text ≠ [] ∧ word_count page.text < 20) ∨
       (stripChars page.text ≠ [] ∧ 20 ≤ word_count page.text ∧ lp ≤ 15 ∧
         (∃ kw ∈ front_matter_keywords, kw <:+: (stripChars page.text).map toLowerPy) ∧
         word_count page.text < 220)) := by
  simp only [is_noise_page]
  split_ifs with h1 h2 h3
  · simp [h1]
  · refine iff_of_true rfl (Or.inr (Or.inl ⟨h1, h2⟩))
  · obtain ⟨h31, h32, h33⟩ := h3
    have hex : ∃ kw ∈ front_matter_keywords,
        kw <:+: (stripChars page.text).map toLowerPy := by
      have h := List.countP_pos_iff.mp h32
      simpa using h
    exact iff_of_true rfl (Or.inr (Or.inr ⟨h1, not_lt.mp h2, h31, hex, h33⟩))
  · refine iff_of_false (by simp) ?_
    rintro (h | ⟨_, hlt⟩ | ⟨_, _, h15, hex, hlt220⟩)
    · exact h1 h
    · exact h2 hlt
    · refine h3 ⟨h15, ?_, hlt220⟩
      refine List.countP_pos_iff.mpr ?_
      simpa using hex

section FloatLemmas

/-- The fuelled base-two logarithm brackets its argument between consecutive
powers of two whenever the fuel suffices. -/
theorem log2floorAux_spec :
    ∀ (fuel n : Nat), 1 ≤ n → n ≤ fuel →
      2 ^ log2floorAux fuel n ≤ n ∧ n < 2 ^ (log2floorAux fuel n + 1) := by
  intro fuel
  induction fuel with
  | zero => intro n h1 h2; omega
  | succ f ih =>
    intro n h1 h2
    by_cases h : 2 ≤ n
    · have hrec := ih (n / 2) (by omega) (by omega)
      simp only [log2floorAux, if_pos h]
      have e1 : (2:Nat) ^ (log2floorAux f (n / 2) + 1) = 2 * 2 ^ log2floorAux f (n / 2) := by
        ring
      have e2 : (2:Nat) ^ (log2floorAux f (n / 2) + 1 + 1) =
          2 * 2 ^ (log2floorAux f (n / 2) + 1) := by
        ring
      omega
    · simp only [log2floorAux, if_neg h]
      simp only [pow_zero, pow_one]
      omega

/-- The base-two logarithm brackets its argument between consecutive powers
of two. -/
theorem log2floor_spec {n : Nat} (h : 1 ≤ n) :
    2 ^ log2floor n ≤ n ∧ n < 2 ^ (log2floor n + 1) :=
  log2floorAux_spec n n h le_rfl

/-- Round-to-even never reaches below the enclosing lower multiple. -/
theorem le_roundEvenScaled (p s : Nat) : p / 2 ^ s * 2 ^ s ≤ roundEvenScaled p s := by
  unfold roundEvenScaled
  dsimp only
  have hB : (p / 2 ^ s + 1) * 2 ^ s = p / 2 ^ s * 2 ^ s + 2 ^ s := by ring
  split_ifs <;> omega

/-- Round-to-even moves its argument up by at most half of the rounding
grain. -/
theorem roundEvenScaled_le (p s : Nat) (hs : 1 ≤ s) :
    roundEvenScaled p s ≤ p + 2 ^ (s - 1) := by
  have hd : (2:Nat) ^ s = 2 * 2 ^ (s - 1) := by
    cases s with
    | zero => omega
    | succ t => simp [pow_succ, Nat.mul_comm]
  unfold roundEvenScaled
  dsimp only
  have hdm : 2 ^ s * (p / 2 ^ s) + p % 2 ^ s = p := Nat.div_add_mod p (2 ^ s)
  have hmod : p % 2 ^ s < 2 ^ s := Nat.mod_lt _ (by positivity)
  have hA : p / 2 ^ s * 2 ^ s = 2 ^ s * (p / 2 ^ s) := by ring
  have hB : (p / 2 ^ s + 1) * 2 ^ s = 2 ^ s * (p / 2 ^ s) + 2 ^ s := by ring
  split_ifs <;> omega

/-- Python's float truncation int(n * 0.2) agrees with the exact floor of a
fifth for every count up to 6004799503160661; within that range the product's
half-ulp cannot carry the value across the next integer multiple. -/
theorem float_fifth_eq_div_five {n : Nat} (hn : n ≤ 6004799503160661) :
    float_fifth n = n / 5 := by
  by_cases hsmall : n ≤ 2
  · interval_cases n <;> decide
  · push_neg at hsmall
    have hb : log2floor n ≤ 52 := by
      by_contra hcon
      push_neg at hcon
      have h1 := (log2floor_spec (show 1 ≤ n by omega)).1
      have h2 : (2:Nat) ^ 53 ≤ 2 ^ log2floor n :=
        Nat.pow_le_pow_right (by omega) (by omega)
      have h3 : (2:Nat) ^ 53 = 9007199254740992 := by norm_num
      omega
    have hA : round53 n = n := by
      unfold round53
      rw [if_pos hb]
    unfold float_fifth
    rw [hA]
    set p := n * 3602879701896397 with hp
    have hp5 : 5 * p = n * 18014398509481984 + n := by rw [hp]; ring
    obtain ⟨hbl, hbu⟩ := log2floor_spec (show 1 ≤ p by omega)
    set b := log2floor p with hbdef
    have hb53 : 53 ≤ b := by
      by_contra hcon
      push_neg at hcon
      have h2 : (2:Nat) ^ (b + 1) ≤ 2 ^ 53 := Nat.pow_le_pow_right (by omega) (by omega)
      have h3 : (2:Nat) ^ 53 = 9007199254740992 := by norm_num
      omega
    have hbhi : b ≤ 104 := by
      by_contra hcon
      push_neg at hcon
      have h2 : (2:Nat) ^ 105 ≤ 2 ^ b := Nat.pow_le_pow_right (by omega) (by omega)
      have h3 : (2:Nat) ^ 105 = 40564819207303340847894502572032 := by norm_num
      omega
    set s := b - 52 with hsdef
    have hs1 : 1 ≤ s := by omega
    have hB2 : round53 p = roundEvenScaled p s := by
      unfold round53
      rw [if_neg (by omega)]
    have he53 : (2:Nat) ^ (s - 1) * 9007199254740992 = 2 ^ b := by
      rw [show b = s - 1 + 53 by omega, pow_add]
      norm_num
    have hup : roundEvenScaled p s ≤ p + 2 ^ (s - 1) := roundEvenScaled_le p s hs1
    have hlo : p / 2 ^ s * 2 ^ s ≤ roundEvenScaled p s := le_roundEvenScaled p s
    set a := n / 5 with hadef
    have hale : a * 18014398509481984 ≤ p := by omega
    have hmul54 : a * 2 ^ (54 - s) * 2 ^ s = a * 18014398509481984 := by
      rw [mul_assoc, ← pow_add, show 54 - s + s = 54 by omega]
      norm_num
    have hdivle : a * 2 ^ (54 - s) ≤ p / 2 ^ s := by
      rw [Nat.le_div_iff_mul_le (by positivity)]
      calc a * 2 ^ (54 - s) * 2 ^ s = a * 18014398509481984 := hmul54
        _ ≤ p := hale
    have hlow : a * 18014398509481984 ≤ roundEvenScaled p s := by
      calc a * 18014398509481984 = a * 2 ^ (54 - s) * 2 ^ s := hmul54.symm
        _ ≤ p / 2 ^ s * 2 ^ s := Nat.mul_le_mul_right _ hdivle
        _ ≤ roundEvenScaled p s := hlo
    have hE : 2 ^ (s - 1) * 9007199254740992 ≤ p := by
      rw [he53]
      exact hbl
    have hkey : p + 2 ^ (s - 1) < (a + 1) * 18014398509481984 := by omega
    have hq54 : roundEvenScaled p s < (a + 1) * 18014398509481984 :=
      lt_of_le_of_lt hup hkey
    rw [hB2, show (2:Nat) ^ 54 = 18014398509481984 from by norm_num]
    omega

end FloatLemmas

set_option maxRecDepth 1000000 in
/-- C4 counterexample: the claimed exact threshold formula max(3, floor of
0.2 times the page count) fails on the program at a document of
6755399441055744 pages, the smallest diverging count: the binary64 product
rounds up, so the program's threshold is max(3, 1351079888211149) while the
exact floor gives max(3, 1351079888211148). -/
theorem C4_counterexample :
    recurring_threshold (List.replicate 6755399441055744 (Page.mk 1 [])) ≠
      max 3 (6755399441055744 / 5) := by
  unfold recurring_threshold
  rw [List.length_replicate]
  decide

/-- C4 amended: recurring-set membership is exactly a table count reaching
the threshold max(3, int(0.2 * pageCount)) computed in binary64 floating
point, as the source does; that threshold coincides with the exact floor
max(3, pageCount / 5) for every page count up to 6004799503160661 — hence
threshold 3 for 5-page and 10-page documents — and the empty normalized key
is never a member of either recurring set. -/
theorem C4_amended_recurrence_threshold :
    (∀ (pages : List Page) (k : List Char),
      (is_recurring_header pages k = true ↔
        max 3 (float_fifth pages.length) ≤ (header_footer_counts pages).1 k) ∧
      (is_recurring_footer pages k = true ↔
        max 3 (float_fifth pages.length) ≤ (header_footer_counts pages).2 k)) ∧
    (∀ pages : List Page, pages.length ≤ 6004799503160661 →
      recurring_threshold pages = max 3 (pages.length / 5)) ∧
    (∀ pages : List Page,
      is_recurring_header pages [] = false ∧ is_recurring_footer pages [] = false) ∧
    recurring_threshold (List.replicate 5 (Page.mk 1 [])) = 3 ∧
    recurring_threshold (List.replicate 10 (Page.mk 1 [])) = 3 := by
  refine ⟨fun pages k => ⟨?_, ?_⟩, fun pages hlen => ?_, fun pages => ⟨?_, ?_⟩,
    by decide, by decide⟩
  · simp [is_recurring_header, recurring_threshold]
  · simp [is_recurring_footer, recurring_threshold]
  · unfold recurring_threshold
    rw [float_fifth_eq_div_five hlen]
  · unfold is_recurring_header
    rw [(header_footer_counts_nil_key pages).1]
    simp only [decide_eq_false_iff_not, recurring_threshold]
    omega
  · unfold is_recurring_footer
    rw [(header_footer_counts_nil_key pages).2]
    simp only [decide_eq_false_iff_not, recurring_threshold]
    omega

/-- Witness for the amended C4 at a 7-page document, inside the proven
agreement range: the program's threshold is the exact floor value 3. -/
theorem C4_witness :
    recurring_threshold (List.replicate 7 (Page.mk 1 [])) =
      max 3 ((List.replicate 7 (Page.mk 1 [])).length / 5) :=
  C4_amended_recurrence_threshold.2.1 (List.replicate 7 (Page.mk 1 [])) (by decide)

/-- C8: with preprocessing disabled the pipeline is the identity on the raw
pages, bypassing all cleaning; with it enabled it is the preprocessing
pass. -/
theorem C8_disabled_is_identity (pages : List Page) :
    clean false pages = pages ∧ clean true pages = preprocess_pages pages :=
  ⟨rfl, rfl⟩

/-- C9: when the filtered result is non-empty (so the fallback does not
fire), every output page has non-empty text, non-empty stripped text, and at
least 20 word tokens, because it passed the classifier's emptiness and
sparsity checks. -/
theorem C9_kept_pages_are_dense (pages : List Page) (p : Page)
    (hne : cleaned_pages pages ≠ []) (hp : p ∈ preprocess_pages pages) :
    p.text ≠ [] ∧ stripChars p.text ≠ [] ∧ 20 ≤ word_count p.text := by
  have h0 : pages ≠ [] := by
    rintro rfl
    exact hne rfl
  rw [preprocess_pages, if_neg h0, if_neg hne] at hp
  obtain ⟨hte, j, hj⟩ := mem_filter_noise_conditions hp
  obtain ⟨hs, hwc⟩ := not_noise_conditions hj
  exact ⟨hte, hs, hwc⟩

set_option maxRecDepth 400000 in
/-- Witness for C9 at a one-page document with exactly 20 plain words: the
page survives filtering and satisfies all three conditions. -/
theorem C9_witness :
    pg20.text ≠ [] ∧ stripChars pg20.text ≠ [] ∧ 20 ≤ word_count pg20.text :=
  C9_kept_pages_are_dense [pg20] pg20 (by decide) (by decide)



section IndexedForm

/-- The filtering loop in indexed form: the element at input index i is
classified at logical position counter + i + 1. -/
theorem filter_noise_eq_range (hdr ftr : List Char → Bool) :
    ∀ (l : List Page) (k : Nat),
      filter_noise hdr ftr k l = (List.range l.length).filterMap (fun i =>
        l[i]?.bind fun page =>
          let candidate := candidate_page hdr ftr page
          if is_noise_page candidate (k + i + 1) = true then none
          else if candidate.text = [] then none
          else some candidate) := by
  intro l
  induction l with
  | nil => intro k; simp [filter_noise]
  | cons page rest ih =>
    intro k
    have htail : ((List.range rest.length).map Nat.succ).filterMap (fun i =>
        (page :: rest)[i]?.bind fun pg =>
          let candidate := candidate_page hdr ftr pg
          if is_noise_page candidate (k + i + 1) = true then none
          else if candidate.text = [] then none
          else some candidate) = filter_noise hdr ftr (k + 1) rest := by
      rw [List.filterMap_map, ih (k + 1)]
      refine congrArg (fun f => List.filterMap f (List.range rest.length)) ?_
      funext i
      have harith : k + (i + 1) + 1 = k + 1 + i + 1 := by omega
      simp only [Function.comp_apply, Nat.succ_eq_add_one, List.getElem?_cons_succ, harith]
    rw [filter_noise, List.length_cons, List.range_succ_eq_map, List.filterMap_cons, htail]
    by_cases hn : is_noise_page (candidate_page hdr ftr page) (k + 1) = true
    · simp [hn]
    · by_cases ht : (candidate_page hdr ftr page).text = []
      · simp [hn, ht]
      · simp [hn, ht]

end IndexedForm

/-- C6: the classifier call for the page at 0-based input index i always uses
logical position i + 1, the loop counter over the whole input sequence; the
position is independent of how many earlier pages were dropped and is never
the count of kept pages. -/
theorem C6_logical_position_is_loop_counter (pages : List Page) :
    cleaned_pages pages = (List.range pages.length).filterMap (fun i =>
      pages[i]?.bind fun page =>
        let candidate :=
          candidate_page (is_recurring_header pages) (is_recurring_footer pages) page
        if is_noise_page candidate (i + 1) = true then none
        else if candidate.text = [] then none
        else some candidate) := by
  unfold cleaned_pages
  have h := filter_noise_eq_range (is_recurring_header pages) (is_recurring_footer pages) pages 0
  simpa using h

section CollapseLemmas

/-- A character of a collapsed string is a character of the input or the
space substituted for a whitespace run. -/
theorem collapseWs_mem {c : Char} : ∀ {l : List Char}, c ∈ collapseWs l → c ∈ l ∨ c = ' ' := by
  intro l
  induction l with
  | nil => intro h; simp [collapseWs] at h
  | cons a rest ih =>
    cases rest with
    | nil =>
      intro h
      unfold collapseWs at h
      split_ifs at h with ha
      · simp at h
        exact Or.inr h
      · simp at h
        exact Or.inl (by simp [h])
    | cons d cs =>
      intro h
      unfold collapseWs at h
      split_ifs at h with ha hd
      · rcases ih h with h1 | h1
        · exact Or.inl (List.mem_cons_of_mem a h1)
        · exact Or.inr h1
      · rcases List.mem_cons.mp h with h1 | h1
        · exact Or.inr h1
        · rcases ih h1 with h2 | h2
          · exact Or.inl (List.mem_cons_of_mem a h2)
          · exact Or.inr h2
      · rcases List.mem_cons.mp h with h1 | h1
        · exact Or.inl (by simp [h1])
        · rcases ih h1 with h2 | h2
          · exact Or.inl (List.mem_cons_of_mem a h2)
          · exact Or.inr h2

/-- Every character drawn from the normal alphabet that is whitespace is the
space itself. -/
theorem isNormChar_space_eq {c : Char} (h1 : isNormChar c = true)
    (h2 : isPySpace c = true) : c = ' ' := by
  have h3 : c.toNat = 32 := by
    simp only [isNormChar, decide_eq_true_eq] at h1
    simp only [isPySpace, decide_eq_true_eq] at h2
    omega
  have h4 := Char.ofNat_toNat c
  rw [h3] at h4
  exact h4.symm.trans (by decide : Char.ofNat 32 = ' ')

/-- Collapsing is the identity on strings over the normal alphabet with no
two adjacent spaces. -/
theorem collapseWs_eq_self : ∀ {l : List Char}, (∀ c ∈ l, isNormChar c = true) →
    ¬ ([' ', ' '] <:+: l) → collapseWs l = l := by
  intro l
  induction l with
  | nil => intro _ _; rfl
  | cons a rest ih =>
    cases rest with
    | nil =>
      intro hchar _
      unfold collapseWs
      split_ifs with ha
      · rw [isNormChar_space_eq (hchar a (by simp)) ha]
      · rfl
    | cons d cs =>
      intro hchar hnds
      have hchar' : ∀ c ∈ d :: cs, isNormChar c = true :=
        fun c hc => hchar c (List.mem_cons_of_mem a hc)
      have hnds' : ¬ ([' ', ' '] <:+: d :: cs) :=
        fun h => hnds (List.infix_cons h)
      unfold collapseWs
      split_ifs with ha hd
      · exfalso
        have ha' : a = ' ' := isNormChar_space_eq (hchar a (by simp)) ha
        have hd' : d = ' ' := isNormChar_space_eq (hchar d (by simp)) hd
        refine hnds (List.IsPrefix.isInfix ⟨cs, ?_⟩)
        rw [ha', hd']
        rfl
      · rw [ih hchar' hnds', isNormChar_space_eq (hchar a (by simp)) ha]
      · rw [ih hchar' hnds']

/-- A collapsed string starting from a non-whitespace character starts with
that character. -/
theorem collapseWs_head_of_not_space {d : Char} {cs : List Char}
    (h : isPySpace d = false) : (collapseWs (d :: cs)).head? = some d := by
  cases cs with
  | nil => simp [collapseWs, h]
  | cons e cs' => simp [collapseWs, h]

/-- A collapsed string never contains two adjacent spaces. -/
theorem collapseWs_no_double_space : ∀ {l : List Char}, ¬ ([' ', ' '] <:+: collapseWs l) := by
  intro l
  induction l with
  | nil =>
    intro h
    simpa [collapseWs] using h.length_le
  | cons a rest ih =>
    cases rest with
    | nil =>
      intro h
      have hl := h.length_le
      unfold collapseWs at hl
      split_ifs at hl <;> simp at hl
    | cons d cs =>
      intro h
      unfold collapseWs at h
      split_ifs at h with ha hd
      · exact ih h
      · rcases List.infix_cons_iff.mp h with hpre | hinf
        · obtain ⟨heq, htl⟩ := List.cons_prefix_cons.mp hpre
          obtain ⟨t, ht⟩ := htl
          have hhead : (collapseWs (d :: cs)).head? = some ' ' := by
            rw [← ht]
            rfl
          have hd2 := @collapseWs_head_of_not_space d cs (Bool.eq_false_iff.mpr hd)
          rw [hhead] at hd2
          have : d = ' ' := by
            injection hd2 with h2
            exact h2.symm
          rw [this] at hd
          exact hd (by decide)
        · exact ih hinf
      · rcases List.infix_cons_iff.mp h with hpre | hinf
        · obtain ⟨heq, htl⟩ := List.cons_prefix_cons.mp hpre
          rw [← heq] at ha
          exact ha (by decide)
        · exact ih hinf

end CollapseLemmas

section NormalizeLemmas

/-- Every character of a normalized line is in the normal alphabet. -/
theorem normalize_line_chars (x : List Char) :
    ∀ c ∈ normalize_line x, isNormChar c = true := by
  intro c hc
  simp only [normalize_line] at hc
  have h1 : c ∈ (collapseWs ((stripChars x).map toLowerPy)).filter isNormChar :=
    List.Sublist.mem hc (stripChars_infix_self _).sublist
  exact (List.mem_filter.mp h1).2

/-- Normalized lines carry no leading or trailing whitespace. -/
theorem stripChars_normalize_line (x : List Char) :
    stripChars (normalize_line x) = normalize_line x := by
  simp only [normalize_line]
  exact stripChars_idem _

/-- Lowercasing fixes characters of the normal alphabet. -/
theorem toLowerPy_eq_self_of_normChar {c : Char} (h : isNormChar c = true) :
    toLowerPy c = c := by
  have hno : ¬ (65 ≤ c.toNat ∧ c.toNat ≤ 90) := by
    simp only [isNormChar, decide_eq_true_eq] at h
    omega
  simp [toLowerPy, hno]

/-- On strings over the normal alphabet, normalizing is stripping after
collapsing after stripping. -/
theorem normalize_line_of_normChars {l : List Char}
    (hchar : ∀ c ∈ l, isNormChar c = true) :
    normalize_line l = stripChars (collapseWs (stripChars l)) := by
  simp only [normalize_line]
  have hmap : (stripChars l).map toLowerPy = stripChars l := by
    have h1 : (stripChars l).map toLowerPy = (stripChars l).map id :=
      List.map_congr_left fun a ha =>
        toLowerPy_eq_self_of_normChar (hchar a (List.Sublist.mem ha (stripChars_infix_self l).sublist))
    rw [h1, List.map_id]
  have hfilter : (collapseWs (stripChars l)).filter isNormChar = collapseWs (stripChars l) := by
    rw [List.filter_eq_self]
    intro a ha
    rcases collapseWs_mem ha with h | h
    · exact hchar a (List.Sublist.mem h (stripChars_infix_self l).sublist)
    · rw [h]; decide
  rw [hmap, hfilter]

/-- A stripped string over the normal alphabet with no two adjacent spaces is
a fixed point of normalization. -/
theorem normalize_line_fixpoint {l : List Char}
    (hchar : ∀ c ∈ l, isNormChar c = true)
    (hnds : ¬ ([' ', ' '] <:+: l)) (hstrip : stripChars l = l) :
    normalize_line l = l := by
  rw [normalize_line_of_normChars hchar, hstrip, collapseWs_eq_self hchar hnds, hstrip]

/-- A second normalization pass only collapses residual double spaces. -/
theorem normalize_line_twice (x : List Char) :
    normalize_line (normalize_line x) = stripChars (collapseWs (normalize_line x)) := by
  rw [normalize_line_of_normChars (normalize_line_chars x), stripChars_normalize_line]

end NormalizeLemmas

/-- C7 counterexample: normalize is not idempotent; on a line where removing
punctuation merges two spaces, normalizing twice differs from once. -/
theorem C7_counterexample :
    normalize_line (normalize_line "a .. b".data) ≠ normalize_line "a .. b".data := by
  decide

/-- C7 amended: normalize is a deterministic total function, and it is
idempotent on every input whose normalization contains no two adjacent
spaces; in general a second pass can still collapse double spaces left by
punctuation removal, and from the second application onward the result is
stable. -/
theorem C7_normalize_amended (x : List Char) :
    (¬ ([' ', ' '] <:+: normalize_line x) →
      normalize_line (normalize_line x) = normalize_line x) ∧
    normalize_line (normalize_line (normalize_line x)) =
      normalize_line (normalize_line x) := by
  constructor
  · intro hnds
    exact normalize_line_fixpoint (normalize_line_chars x) hnds (stripChars_normalize_line x)
  · have h2 := normalize_line_twice x
    rw [h2]
    refine normalize_line_fixpoint ?_ ?_ (stripChars_idem _)
    · intro c hc
      have h1 : c ∈ collapseWs (normalize_line x) :=
        List.Sublist.mem hc (stripChars_infix_self _).sublist
      rcases collapseWs_mem h1 with h | h
      · exact normalize_line_chars x c h
      · rw [h]; decide
    · intro hcon
      exact collapseWs_no_double_space (hcon.trans (stripChars_infix_self _))

/-- Witness for the amended C7 at a line already free of double spaces. -/
theorem C7_witness :
    normalize_line (normalize_line "hello world".data) = normalize_line "hello world".data :=
  (C7_normalize_amended "hello world".data).1 (by decide)


end Booktures
